import Mathlib

/-!
Verification of the bookmark discovery and search logic of the
ulauncher-brave-beta-bookmarks extension (src/BrowserBookmarks.py),
as a shallow embedding.

Python strings are modelled as lists of code points (`PyStr := List Nat`);
`enc` turns a Lean string literal into that representation. Python
`str.lower` is modelled on the ASCII range, which covers every string the
program compares. The filesystem and the JSON loader are modelled as
explicit function parameters; an exception escaping `get_items` is
modelled as `Except.error ()`.
-/

/-- Python strings as lists of Unicode code points. -/
abbrev PyStr := List Nat

/-- Encode a Lean string literal as a `PyStr`. -/
def enc (s : String) : PyStr := s.toList.map Char.toNat

/-- ASCII lower-casing of one code point, as Python `str.lower` acts on
the ASCII range (the only range the program compares). -/
def lowerChar (c : Nat) : Nat := if 65 ≤ c ∧ c ≤ 90 then c + 32 else c

/-- `text.lower()` on the model strings. -/
def strLower (s : PyStr) : PyStr := s.map lowerChar

/-- Boolean test: first list is an initial segment of the second. -/
def isPre : PyStr → PyStr → Bool
  | [], _ => true
  | _ :: _, [] => false
  | a :: as, b :: bs => a == b && isPre as bs

/-- Boolean test for Python `s in l` on strings: `s` occurs contiguously
inside `l`. -/
def isSubList (s : PyStr) : PyStr → Bool
  | [] => isPre s []
  | b :: bs => isPre s (b :: bs) || isSubList s bs

/-- Boolean test for Python `l.endswith(s)`. -/
def listEndsWith (l s : PyStr) : Bool := isPre s.reverse l.reverse

/-- Python `str.split(sep)` with an explicit one-character separator:
keeps empty fields, and the empty string splits to `[""]`. -/
def pySplit (sep : Nat) : PyStr → List PyStr
  | [] => [[]]
  | c :: cs =>
    if c == sep then [] :: pySplit sep cs
    else
      match pySplit sep cs with
      | [] => [[c]]
      | w :: ws => (c :: w) :: ws

/-- `BrowserBookmarks.contains_all_substrings`: every substring,
lower-cased, occurs in the lower-cased text. -/
def contains_all_substrings (text : PyStr) (substrings : List PyStr) : Bool :=
  substrings.all (fun s => isSubList (strLower s) (strLower text))

/-- A bookmark tree node: the code distinguishes nodes whose type
discriminator is the string folder (carrying children) from every other
node, which it treats as a leaf carrying a display name and a URL. -/
inductive Node where
  | folder (name : PyStr) (children : List Node)
  | leaf (name url : PyStr)

/-- The type discriminator test `bookmark_entry["type"] == "folder"`. -/
def Node.isFolder : Node → Bool
  | .folder _ _ => true
  | .leaf _ _ => false

/-- `bookmark_entry["name"]`. -/
def Node.nodeName : Node → PyStr
  | .folder n _ => n
  | .leaf n _ => n

/-- `bookmark_entry["url"]` (only ever read on leaves). -/
def Node.nodeUrl : Node → PyStr
  | .folder _ _ => []
  | .leaf _ u => u

/-- `BrowserBookmarks.max_matches_len`. -/
def max_matches_len : Nat := 10

mutual

/-- `BrowserBookmarks.find_rec`: the state is the pair of the shared
counter `self.matches_len` and the accumulated `matches` list. -/
def find_rec (query : PyStr) : Node → Nat × List Node → Nat × List Node
  | entry, st =>
    if st.1 ≥ max_matches_len then st
    else
      match entry with
      | .folder _ children => find_rec_children query children st
      | .leaf name url =>
        if contains_all_substrings name (pySplit 32 query) then
          (st.1 + 1, st.2 ++ [Node.leaf name url])
        else st

/-- The `for child_bookmark_entry in bookmark_entry["children"]` loop of
`find_rec`. -/
def find_rec_children (query : PyStr) : List Node → Nat × List Node → Nat × List Node
  | [], st => st
  | c :: cs, st => find_rec_children query cs (find_rec query c st)

end

mutual

/-- All leaf nodes of a tree in depth-first order, children in stored
order. -/
def leaves : Node → List Node
  | .folder _ cs => leavesList cs
  | .leaf n u => [Node.leaf n u]

/-- `leaves` over a list of children. -/
def leavesList : List Node → List Node
  | [] => []
  | c :: cs => leaves c ++ leavesList cs

end

/-- Whether `find_rec` counts a node as a match: only non-folder nodes
whose name contains every sub-query. -/
def matchNode (query : PyStr) : Node → Bool
  | .folder _ _ => false
  | .leaf name _ => contains_all_substrings name (pySplit 32 query)

/-- The matching leaves of a tree in depth-first order. -/
def matchedLeaves (query : PyStr) (n : Node) : List Node :=
  (leaves n).filter (matchNode query)

/-- The matching leaves of a child list in depth-first order. -/
def matchedLeavesList (query : PyStr) (cs : List Node) : List Node :=
  (leavesList cs).filter (matchNode query)

/-- The three root sections of a parsed bookmark file
(`data["roots"]["bookmark_bar"]`, `["synced"]`, `["other"]`). -/
structure Roots where
  bookmark_bar : Node
  synced : Node
  other : Node

/-- `support_browsers`. -/
def support_browsers : List PyStr := [enc "BraveSoftware/Brave-Browser-Beta"]

/-- `browser_imgs.get(browser)`. -/
def browser_imgs (browser : PyStr) : Option PyStr :=
  if browser = enc "BraveSoftware/Brave-Browser-Beta" then
    some (enc "images/brave-beta.png")
  else none

/-- One `ExtensionResultItem` as produced by `get_items`: icon, name
(label) and url (description, also the OpenUrlAction target). -/
structure Item where
  icon : Option PyStr
  name : PyStr
  url : PyStr
deriving DecidableEq

/-- The `ExtensionResultItem(...)` construction in the loop of
`get_items`. -/
def mkItem (browser : PyStr) (bookmark : Node) : Item :=
  { icon := browser_imgs browser
    name := bookmark.nodeName
    url := bookmark.nodeUrl }

/-- The body of `get_items` for a single bookmark file: three `find_rec`
calls on the root sections, with a fresh `matches` list and the shared
counter at `len`. -/
def searchFile (query : PyStr) (data : Roots) (len : Nat) : Nat × List Node :=
  find_rec query data.other
    (find_rec query data.synced
      (find_rec query data.bookmark_bar (len, [])))

/-- The `for bookmarks_path, browser in self.bookmarks_paths` loop of
`get_items`. `fs` models `open` plus `json.load`: `none` is a missing,
unreadable or malformed file, whose exception propagates as
`Except.error ()`. -/
def getItemsLoop (fs : PyStr → Option Roots) (query : PyStr) :
    List (PyStr × PyStr) → Nat → List Item → Except Unit (List Item)
  | [], _, items => Except.ok items
  | (bookmarks_path, browser) :: rest, len, items =>
    match fs bookmarks_path with
    | none => Except.error ()
    | some data =>
      let st := searchFile query data len
      getItemsLoop fs query rest st.1 (items ++ st.2.map (mkItem browser))

/-- `BrowserBookmarks.get_items`: resets `matches_len` to 0, replaces a
`None` query by the empty string, and runs the per-file loop. -/
def get_items (fs : PyStr → Option Roots) (bookmarks_paths : List (PyStr × PyStr))
    (query : Option PyStr) : Except Unit (List Item) :=
  getItemsLoop fs (query.getD []) bookmarks_paths 0 []

/-- The grep output collected by `BrowserBookmarks.collect_bookmarks_paths`:
`fs dir` models the lines printed by `find dir`; the shell pipeline
`find dir | grep Bookmarks` keeps the lines containing the string
Bookmarks, and `f.read().split(chr(10))` appends one empty string per
directory (the text after the final newline). -/
def grepResults (fs : PyStr → List PyStr) (dirs : List PyStr) : List PyStr :=
  dirs.flatMap (fun d => ((fs d).filter (fun p => isSubList (enc "Bookmarks") p)) ++ [[]])

/-- The body of `collect_bookmarks_paths` given the grep output. -/
def collect_bookmarks_paths (fs : PyStr → List PyStr) (dirs : List PyStr)
    (browser : PyStr) : List (PyStr × PyStr) :=
  if (grepResults fs dirs).length = 0 then []
  else
    ((grepResults fs dirs).filter (fun p => listEndsWith p (enc "Bookmarks"))).map
      (fun p => (p, browser))

/-- Dict read `prefs[k]`, as an association list lookup. -/
def prefLookup : List (PyStr × PyStr) → PyStr → Option PyStr
  | [], _ => none
  | (k0, v0) :: rest, k => if k0 = k then some v0 else prefLookup rest k

/-- Dict write `prefs[k] = v`: replace the existing binding, else append. -/
def setPref : List (PyStr × PyStr) → PyStr → PyStr → List (PyStr × PyStr)
  | [], k, v => [(k, v)]
  | (k0, v0) :: rest, k, v =>
    if k0 = k then (k0, v) :: rest else (k0, v0) :: setPref rest k v

/-- The two candidate directory templates built for a supported browser
in `find_bookmarks_paths`. -/
def browserTemplateDirs (browser : PyStr) : List PyStr :=
  [enc "$HOME/.config/" ++ browser,
   enc "$HOME/snap/" ++ browser ++ enc "/current/.config/" ++ browser]

/-- `BrowserBookmarks.find_bookmarks_paths`: supported browsers first,
then, when the `additional_browser_paths` preference is a non-empty
string, its colon-separated directories under the label custom_path. -/
def find_bookmarks_paths (fs : PyStr → List PyStr)
    (preferences : List (PyStr × PyStr)) : List (PyStr × PyStr) :=
  let additional := (prefLookup preferences (enc "additional_browser_paths")).getD []
  let fromBrowsers :=
    support_browsers.flatMap (fun browser =>
      collect_bookmarks_paths fs (browserTemplateDirs browser) browser)
  fromBrowsers ++
    (if additional ≠ [] then
      collect_bookmarks_paths fs (pySplit 58 additional) (enc "custom_path")
    else [])

/-- The extension state touched by `PreferencesEventListener`. -/
structure ExtState where
  preferences : List (PyStr × PyStr)
  bookmarks_paths : List (PyStr × PyStr)

/-- The two preference events the listener is subscribed to. -/
inductive PrefEvent where
  | update (id newValue : PyStr)
  | initial (preferences : List (PyStr × PyStr))

/-- `PreferencesEventListener.on_event`: a `PreferencesUpdateEvent` whose
id is keyword returns at once; any other event updates the preferences
and recomputes `bookmarks_paths` via `find_bookmarks_paths`. -/
def on_event (fs : PyStr → List PyStr) (event : PrefEvent) (st : ExtState) : ExtState :=
  match event with
  | .update id newValue =>
    if id = enc "keyword" then st
    else
      let prefs := setPref st.preferences id newValue
      { preferences := prefs, bookmarks_paths := find_bookmarks_paths fs prefs }
  | .initial preferences =>
    { preferences := preferences
      bookmarks_paths := find_bookmarks_paths fs preferences }

/-! ## Helper lemmas -/

theorem take_budget_append {α : Type} (A B : List α) (b : Nat) :
    (A ++ B).take b = A.take b ++ B.take (b - (A.take b).length) := by
  rw [List.take_append_eq_append_take]
  congr 2
  simp only [List.length_take]
  omega

theorem matchedLeaves_folder (query nm : PyStr) (cs : List Node) :
    matchedLeaves query (Node.folder nm cs) = matchedLeavesList query cs := rfl

theorem matchedLeavesList_cons (query : PyStr) (c : Node) (cs : List Node) :
    matchedLeavesList query (c :: cs) =
      matchedLeaves query c ++ matchedLeavesList query cs := by
  simp [matchedLeavesList, matchedLeaves, leavesList, List.filter_append]

mutual

/-- The full behaviour of `find_rec` from any state: it appends exactly
the matching leaves of the tree, in depth-first order, truncated to the
remaining budget of the shared counter, and advances the counter by the
number appended. -/
theorem find_rec_spec (query : PyStr) (n : Node) (st : Nat × List Node) :
    find_rec query n st =
      (st.1 + ((matchedLeaves query n).take (max_matches_len - st.1)).length,
       st.2 ++ (matchedLeaves query n).take (max_matches_len - st.1)) := by
  rw [find_rec.eq_def]
  by_cases hcap : st.1 ≥ max_matches_len
  · have hz : max_matches_len - st.1 = 0 := by omega
    simp [hcap, hz]
  · simp only [hcap, if_false]
    match n with
    | .folder nm cs =>
      rw [matchedLeaves_folder]
      exact find_rec_children_spec query cs st
    | .leaf name url =>
      have hml : matchedLeaves query (Node.leaf name url) =
          if contains_all_substrings name (pySplit 32 query) then
            [Node.leaf name url] else [] := by
        cases h : contains_all_substrings name (pySplit 32 query) <;>
          simp [matchedLeaves, leaves, matchNode, List.filter, h]
      by_cases hm : contains_all_substrings name (pySplit 32 query)
      · obtain ⟨k, hk⟩ : ∃ k, max_matches_len - st.1 = k + 1 :=
          ⟨max_matches_len - st.1 - 1, by unfold max_matches_len at *; omega⟩
        simp [hm, hml, hk, List.take]
      · simp [hm, hml]

/-- The behaviour of the child loop of `find_rec` from any state. -/
theorem find_rec_children_spec (query : PyStr) (cs : List Node) (st : Nat × List Node) :
    find_rec_children query cs st =
      (st.1 + ((matchedLeavesList query cs).take (max_matches_len - st.1)).length,
       st.2 ++ (matchedLeavesList query cs).take (max_matches_len - st.1)) := by
  match cs with
  | [] =>
    simp [find_rec_children, matchedLeavesList, leavesList, List.filter]
  | c :: cs =>
    rw [find_rec_children, find_rec_spec query c st,
      find_rec_children_spec query cs _]
    rw [matchedLeavesList_cons, take_budget_append]
    simp only [Prod.mk.injEq]
    constructor
    · simp only [List.length_append, List.length_take]
      unfold max_matches_len
      omega
    · rw [List.append_assoc]
      congr 3
      simp only [List.length_take]
      unfold max_matches_len
      omega

end

theorem isSubList_nil (l : PyStr) : isSubList [] l = true := by
  cases l <;> simp [isSubList, isPre]

theorem lowerChar_idem (c : Nat) : lowerChar (lowerChar c) = lowerChar c := by
  unfold lowerChar
  by_cases h : 65 ≤ c ∧ c ≤ 90
  · rw [if_pos h, if_neg (by omega)]
  · rw [if_neg h, if_neg h]

theorem strLower_idem (s : PyStr) : strLower (strLower s) = strLower s := by
  have hf : lowerChar ∘ lowerChar = lowerChar := funext lowerChar_idem
  simp [strLower, List.map_map, hf]

mutual

theorem leaves_no_folder (n : Node) : ∀ x ∈ leaves n, x.isFolder = false := by
  match n with
  | .folder nm cs =>
    rw [leaves]
    exact leavesList_no_folder cs
  | .leaf a u =>
    intro x hx
    rw [leaves] at hx
    simp only [List.mem_singleton] at hx
    subst hx
    rfl

theorem leavesList_no_folder (cs : List Node) : ∀ x ∈ leavesList cs, x.isFolder = false := by
  match cs with
  | [] =>
    intro x hx
    rw [leavesList] at hx
    simp at hx
  | c :: cs =>
    intro x hx
    rw [leavesList] at hx
    rcases List.mem_append.mp hx with h | h
    · exact leaves_no_folder c x h
    · exact leavesList_no_folder cs x h

end

theorem isPre_iff (s : PyStr) : ∀ l : PyStr, isPre s l = true ↔ ∃ t, l = s ++ t := by
  induction s with
  | nil =>
    intro l
    exact ⟨fun _ => ⟨l, rfl⟩, fun _ => rfl⟩
  | cons a as ih =>
    intro l
    cases l with
    | nil =>
      constructor
      · intro h
        simp [isPre] at h
      · rintro ⟨t, ht⟩
        simp at ht
    | cons b bs =>
      have he : isPre (a :: as) (b :: bs) = (a == b && isPre as bs) := rfl
      rw [he, Bool.and_eq_true, beq_iff_eq, ih]
      constructor
      · rintro ⟨rfl, t, rfl⟩
        exact ⟨t, rfl⟩
      · rintro ⟨t, ht⟩
        injection ht with h1 h2
        exact ⟨h1.symm, t, h2⟩

theorem isSubList_iff (s : PyStr) : ∀ l : PyStr,
    isSubList s l = true ↔ ∃ pre post, l = pre ++ s ++ post := by
  intro l
  induction l with
  | nil =>
    rw [isSubList, isPre_iff]
    constructor
    · rintro ⟨t, ht⟩
      exact ⟨[], t, by simpa using ht⟩
    · rintro ⟨pre, post, h⟩
      obtain ⟨h1, h2⟩ := List.append_eq_nil.mp h.symm
      obtain ⟨h3, h4⟩ := List.append_eq_nil.mp h1
      exact ⟨post, by simp [h4, h2]⟩
  | cons b bs ih =>
    have he : isSubList s (b :: bs) = (isPre s (b :: bs) || isSubList s bs) := rfl
    rw [he, Bool.or_eq_true, isPre_iff, ih]
    constructor
    · rintro (⟨t, ht⟩ | ⟨pre, post, h⟩)
      · exact ⟨[], t, by simpa using ht⟩
      · exact ⟨b :: pre, post, by simp [h]⟩
    · rintro ⟨pre, post, h⟩
      cases pre with
      | nil => exact Or.inl ⟨post, by simpa using h⟩
      | cons p ps =>
        right
        injection h with h1 h2
        exact ⟨ps, post, h2⟩

theorem endsWith_isSubList (l s : PyStr) (h : listEndsWith l s = true) :
    isSubList s l = true := by
  unfold listEndsWith at h
  rw [isPre_iff] at h
  obtain ⟨t, ht⟩ := h
  rw [isSubList_iff]
  refine ⟨t.reverse, [], ?_⟩
  have h2 := congrArg List.reverse ht
  simp only [List.reverse_reverse, List.reverse_append] at h2
  simp [h2]

theorem searchFile_children : ∀ (query : PyStr) (data : Roots) (len : Nat),
    searchFile query data len =
      find_rec_children query [data.bookmark_bar, data.synced, data.other] (len, []) :=
  fun _ _ _ => rfl

theorem matchedLeavesList_three (query : PyStr) (data : Roots) :
    matchedLeavesList query [data.bookmark_bar, data.synced, data.other] =
      matchedLeaves query data.bookmark_bar ++ matchedLeaves query data.synced ++
        matchedLeaves query data.other := by
  rw [matchedLeavesList_cons, matchedLeavesList_cons, matchedLeavesList_cons]
  have hnil : matchedLeavesList query [] = [] := by
    simp [matchedLeavesList, leavesList, List.filter]
  rw [hnil]
  simp [List.append_assoc]

/-- One file of `get_items`: the three chained `find_rec` calls collect
the matching leaves of the three root sections, in section order, each
section in depth-first order, truncated to the remaining budget. -/
theorem searchFile_spec (query : PyStr) (data : Roots) (len : Nat) :
    searchFile query data len =
      (len + ((matchedLeaves query data.bookmark_bar ++ matchedLeaves query data.synced ++
          matchedLeaves query data.other).take (max_matches_len - len)).length,
       (matchedLeaves query data.bookmark_bar ++ matchedLeaves query data.synced ++
          matchedLeaves query data.other).take (max_matches_len - len)) := by
  rw [searchFile_children, find_rec_children_spec, matchedLeavesList_three]
  simp

theorem getItemsLoop_length (fs : PyStr → Option Roots) (query : PyStr) :
    ∀ (paths : List (PyStr × PyStr)) (len : Nat) (items res : List Item),
      getItemsLoop fs query paths len items = Except.ok res →
      res.length ≤ items.length + (max_matches_len - len) := by
  intro paths
  induction paths with
  | nil =>
    intro len items res h
    rw [getItemsLoop] at h
    injection h with h
    subst h
    omega
  | cons hd rest ih =>
    obtain ⟨path, browser⟩ := hd
    intro len items res h
    rw [getItemsLoop] at h
    cases hfs : fs path with
    | none => rw [hfs] at h; cases h
    | some data =>
      rw [hfs] at h
      simp only at h
      have hb := ih _ _ _ h
      rw [searchFile_spec] at hb
      simp only [List.length_append, List.length_map, List.length_take] at hb
      unfold max_matches_len at *
      omega

theorem find_rec_leaf (query name url : PyStr) (st : Nat × List Node) :
    find_rec query (Node.leaf name url) st =
      if st.1 ≥ max_matches_len then st
      else if contains_all_substrings name (pySplit 32 query) then
        (st.1 + 1, st.2 ++ [Node.leaf name url])
      else st := by
  rw [find_rec.eq_def]

/-! ## Claims -/

/-- C1: for every query and collection of bookmark sources, the total
number of matches returned by one invocation of get_items, summed across
all bookmark files and all three root sections, is at most
max_matches_len = 10, regardless of how many leaves match. -/
theorem get_items_total_matches_le_max (fs : PyStr → Option Roots)
    (bookmarks_paths : List (PyStr × PyStr)) (query : Option PyStr)
    (items : List Item) (h : get_items fs bookmarks_paths query = Except.ok items) :
    items.length ≤ max_matches_len := by
  have hb := getItemsLoop_length fs (query.getD []) bookmarks_paths 0 [] items h
  simpa using hb

/-- A source whose single file holds twelve matching leaves. -/
def cap_fs : PyStr → Option Roots := fun p =>
  if p = enc "/p/Bookmarks" then
    some { bookmark_bar := Node.folder (enc "bar")
              (List.replicate 12 (Node.leaf (enc "site") (enc "u")))
           synced := Node.folder (enc "s") []
           other := Node.folder (enc "o") [] }
  else none

theorem get_items_total_matches_le_max_witness :
    ((get_items cap_fs [(enc "/p/Bookmarks", enc "custom_path")] none).toOption.getD []).length
      ≤ max_matches_len :=
  get_items_total_matches_le_max cap_fs [(enc "/p/Bookmarks", enc "custom_path")] none
    ((get_items cap_fs [(enc "/p/Bookmarks", enc "custom_path")] none).toOption.getD []) rfl

/-- One good source next to one bad source. -/
def crash_fs : PyStr → Option Roots := fun p =>
  if p = enc "/good/Bookmarks" then
    some { bookmark_bar := Node.folder (enc "bar")
              [Node.leaf (enc "GitHub") (enc "https://github.com")]
           synced := Node.folder (enc "s") []
           other := Node.folder (enc "o") [] }
  else none

/-- C2 (code bug): get_items wraps no handler around loading a source, so
a source that fails to load aborts the whole query: with a bad first
source the call returns the propagated error and no items at all, while
the good source alone would have produced a match. -/
theorem get_items_bad_source_aborts_query :
    get_items crash_fs
        [(enc "/bad/Bookmarks", enc "custom_path"), (enc "/good/Bookmarks", enc "custom_path")]
        (some (enc "git")) = Except.error () ∧
    get_items crash_fs [(enc "/good/Bookmarks", enc "custom_path")] (some (enc "git")) =
      Except.ok [{ icon := none, name := enc "GitHub", url := enc "https://github.com" }] :=
  ⟨rfl, rfl⟩

/-- A directory holding a file whose name merely ends in Bookmarks. -/
def tmp_fs : PyStr → List PyStr := fun d =>
  if d = enc "/tmp" then [enc "/tmp", enc "/tmp/MyBookmarks"] else []

/-- C3 counterexample: an entry named MyBookmarks, whose name is not
exactly Bookmarks, is nevertheless kept as a bookmark source. -/
theorem collect_keeps_name_merely_ending_in_Bookmarks :
    (enc "/tmp/MyBookmarks", enc "custom_path") ∈
      collect_bookmarks_paths tmp_fs [enc "/tmp"] (enc "custom_path") := by
  decide

/-- C3 (amended): an entry of a scanned directory is kept as a bookmark
source, tagged with the label of that scan, if and only if its full path
ends with the string Bookmarks; the name need not be exactly Bookmarks,
so a path like /tmp/MyBookmarks is also kept. -/
theorem collect_bookmarks_paths_mem_iff (fs : PyStr → List PyStr) (dirs : List PyStr)
    (browser p b : PyStr) :
    (p, b) ∈ collect_bookmarks_paths fs dirs browser ↔
      b = browser ∧ listEndsWith p (enc "Bookmarks") = true ∧ ∃ d ∈ dirs, p ∈ fs d := by
  unfold collect_bookmarks_paths
  by_cases hG : (grepResults fs dirs).length = 0
  · rw [if_pos hG]
    have hGnil : grepResults fs dirs = [] := List.length_eq_zero.mp hG
    cases dirs with
    | nil => simp
    | cons d ds =>
      exfalso
      have hmem : ([] : PyStr) ∈ grepResults fs (d :: ds) := by
        unfold grepResults
        apply List.mem_flatMap.mpr
        exact ⟨d, by simp, by simp⟩
      rw [hGnil] at hmem
      simp at hmem
  · rw [if_neg hG]
    constructor
    · intro hmem
      obtain ⟨q, hq, hqe⟩ := List.mem_map.mp hmem
      injection hqe with hq1 hq2
      subst hq1
      subst hq2
      obtain ⟨hqG, hgq⟩ := List.mem_filter.mp hq
      refine ⟨rfl, hgq, ?_⟩
      unfold grepResults at hqG
      obtain ⟨d, hd, hpd⟩ := List.mem_flatMap.mp hqG
      rcases List.mem_append.mp hpd with hin | hin
      · exact ⟨d, hd, (List.mem_filter.mp hin).1⟩
      · exfalso
        simp only [List.mem_singleton] at hin
        subst hin
        exact absurd hgq (by decide)
    · rintro ⟨hb, hend, d, hd, hpd⟩
      subst hb
      apply List.mem_map.mpr
      refine ⟨p, ?_, rfl⟩
      apply List.mem_filter.mpr
      refine ⟨?_, hend⟩
      unfold grepResults
      apply List.mem_flatMap.mpr
      refine ⟨d, hd, List.mem_append.mpr (Or.inl ?_)⟩
      exact List.mem_filter.mpr ⟨hpd, endsWith_isSubList p (enc "Bookmarks") hend⟩

/-- C4: below the cap, find_rec appends a leaf exactly when every
space-separated token of the query occurs, case-folded, as a substring of
the display name, in any order; the name My Personal Blog matches the
query blog personal but not the query blog work. -/
theorem find_rec_leaf_match_iff :
    (∀ (query name url : PyStr) (len : Nat) (m : List Node), len < max_matches_len →
      (find_rec query (Node.leaf name url) (len, m) = (len + 1, m ++ [Node.leaf name url]) ↔
        ∀ t ∈ pySplit 32 query, isSubList (strLower t) (strLower name) = true)) ∧
    contains_all_substrings (enc "My Personal Blog") (pySplit 32 (enc "blog personal")) = true ∧
    contains_all_substrings (enc "My Personal Blog") (pySplit 32 (enc "blog work")) = false := by
  refine ⟨?_, by decide, by decide⟩
  intro query name url len m hlen
  rw [find_rec_leaf]
  rw [if_neg (by simp only [not_le]; omega)]
  by_cases hm : contains_all_substrings name (pySplit 32 query) = true
  · rw [if_pos hm]
    apply iff_of_true rfl
    rw [contains_all_substrings, List.all_eq_true] at hm
    intro t ht
    exact hm t ht
  · have hm2 : contains_all_substrings name (pySplit 32 query) = false := by
      revert hm
      cases contains_all_substrings name (pySplit 32 query) <;> simp
    rw [if_neg (by simp [hm2])]
    apply iff_of_false
    · intro hEq
      have h1 := congrArg Prod.fst hEq
      simp at h1
    · intro hall
      apply hm
      rw [contains_all_substrings, List.all_eq_true]
      exact fun t ht => hall t ht

theorem find_rec_leaf_match_iff_witness :
    find_rec (enc "blog personal") (Node.leaf (enc "My Personal Blog") (enc "u")) (0, []) =
      (1, [Node.leaf (enc "My Personal Blog") (enc "u")]) :=
  (find_rec_leaf_match_iff.1 (enc "blog personal") (enc "My Personal Blog") (enc "u") 0 []
    (by decide)).mpr (by decide)

/-- C5: for the empty query string every leaf is considered a match
(splitting the empty query yields one empty sub-query, contained in every
name), so find_rec returns every leaf of the searched tree subject only
to the 10-match cap. -/
theorem empty_query_matches_all_leaves :
    (∀ name : PyStr, contains_all_substrings name (pySplit 32 (enc "")) = true) ∧
    (∀ (n : Node) (len : Nat) (m : List Node),
      find_rec (enc "") n (len, m) =
        (len + ((leaves n).take (max_matches_len - len)).length,
         m ++ (leaves n).take (max_matches_len - len))) := by
  have hmatch : ∀ name : PyStr, contains_all_substrings name (pySplit 32 (enc "")) = true := by
    intro name
    have hsplit : pySplit 32 (enc "") = [[]] := rfl
    rw [hsplit]
    simp only [contains_all_substrings, List.all_cons, List.all_nil, Bool.and_true]
    exact isSubList_nil (strLower name)
  refine ⟨hmatch, ?_⟩
  intro n len m
  have hml : matchedLeaves (enc "") n = leaves n := by
    apply List.filter_eq_self.mpr
    intro x hx
    cases x with
    | folder nm cs =>
      have hno := leaves_no_folder n (Node.folder nm cs) hx
      simp [Node.isFolder] at hno
    | leaf a u =>
      simpa [matchNode] using hmatch a
  have hs := find_rec_spec (enc "") n (len, m)
  rw [hml] at hs
  exact hs

/-- C6: substring matching is invariant under letter case of both the
query tokens and the bookmark name; GitHub matches github and GITHUB. -/
theorem contains_all_substrings_case_insensitive :
    (∀ (text : PyStr) (substrings : List PyStr),
      contains_all_substrings text substrings =
        contains_all_substrings (strLower text) (substrings.map strLower)) ∧
    contains_all_substrings (enc "GitHub") (pySplit 32 (enc "github")) = true ∧
    contains_all_substrings (enc "GitHub") (pySplit 32 (enc "GITHUB")) = true := by
  refine ⟨?_, by decide, by decide⟩
  intro text substrings
  induction substrings with
  | nil => rfl
  | cons s ss ih =>
    simp only [contains_all_substrings, List.map_cons, List.all_cons]
    simp only [contains_all_substrings] at ih
    rw [ih, strLower_idem, strLower_idem]

/-- One source whose bar holds the leaves Alpha and Beta, whose synced
section is empty, and whose other section holds the leaf Gamma. -/
def order_fs : PyStr → Option Roots := fun p =>
  if p = enc "/p/Bookmarks" then
    some { bookmark_bar := Node.folder (enc "bar")
              [Node.leaf (enc "Alpha") (enc "url-a"), Node.leaf (enc "Beta") (enc "url-b")]
           synced := Node.folder (enc "synced") []
           other := Node.folder (enc "other") [Node.leaf (enc "Gamma") (enc "url-c")] }
  else none

/-- C7: the returned matches are the matching leaves in depth-first
order, over the root sections in the fixed order bookmark_bar, synced,
other, truncated to the cap; concretely, with bar = [Alpha, Beta],
synced = [] and other = [Gamma] and a query matching all three, the
rendered results are exactly Alpha, Beta, Gamma. -/
theorem searchFile_order_bar_synced_other :
    (∀ (query : PyStr) (data : Roots) (len : Nat),
      (searchFile query data len).2 =
        (matchedLeaves query data.bookmark_bar ++ matchedLeaves query data.synced ++
          matchedLeaves query data.other).take (max_matches_len - len)) ∧
    get_items order_fs [(enc "/p/Bookmarks", enc "custom_path")] (some (enc "a")) =
      Except.ok
        [{ icon := none, name := enc "Alpha", url := enc "url-a" },
         { icon := none, name := enc "Beta", url := enc "url-b" },
         { icon := none, name := enc "Gamma", url := enc "url-c" }] := by
  refine ⟨?_, rfl⟩
  intro query data len
  rw [searchFile_spec]

/-- C8: every element of the match list produced by find_rec is a leaf:
no node whose type discriminator is folder ever appears among the
matches. -/
theorem find_rec_returns_only_leaves (query : PyStr) (n : Node) (len : Nat) (x : Node)
    (h : x ∈ (find_rec query n (len, [])).2) : x.isFolder = false := by
  rw [find_rec_spec] at h
  simp only [List.nil_append] at h
  have h2 := List.mem_of_mem_take h
  simp only [matchedLeaves] at h2
  have h3 := (List.mem_filter.mp h2).2
  cases x with
  | folder nm cs => simp [matchNode] at h3
  | leaf a u => rfl

theorem find_rec_returns_only_leaves_witness :
    Node.isFolder (Node.leaf (enc "a") (enc "u")) = false :=
  find_rec_returns_only_leaves (enc "") (Node.leaf (enc "a") (enc "u")) 0
    (Node.leaf (enc "a") (enc "u"))
    (by simp [show find_rec (enc "") (Node.leaf (enc "a") (enc "u")) (0, []) =
        (1, [Node.leaf (enc "a") (enc "u")]) from rfl])

/-- C9: a preference-value-changed event with the reserved keyword key
leaves the extension state unchanged: the preferences mapping is not
modified and the bookmark source list is not recomputed; any other key is
written into the preferences and the source list is fully recomputed by
find_bookmarks_paths on the updated preferences. -/
theorem on_event_keyword_ignored :
    (∀ (fs : PyStr → List PyStr) (newValue : PyStr) (st : ExtState),
      on_event fs (PrefEvent.update (enc "keyword") newValue) st = st) ∧
    (∀ (fs : PyStr → List PyStr) (key newValue : PyStr) (st : ExtState),
      key ≠ enc "keyword" →
      on_event fs (PrefEvent.update key newValue) st =
        { preferences := setPref st.preferences key newValue,
          bookmarks_paths := find_bookmarks_paths fs (setPref st.preferences key newValue) }) := by
  constructor
  · intro fs v st
    simp [on_event]
  · intro fs key v st hk
    simp [on_event, hk]

theorem on_event_keyword_ignored_witness :
    on_event (fun _ => []) (PrefEvent.update (enc "additional_browser_paths") (enc "/tmp/x"))
        { preferences := [], bookmarks_paths := [] } =
      { preferences := setPref [] (enc "additional_browser_paths") (enc "/tmp/x"),
        bookmarks_paths := find_bookmarks_paths (fun _ => [])
          (setPref [] (enc "additional_browser_paths") (enc "/tmp/x")) } :=
  on_event_keyword_ignored.2 (fun _ => []) (enc "additional_browser_paths") (enc "/tmp/x")
    { preferences := [], bookmarks_paths := [] } (by decide)

/-- C10: an absent query (None from the host) behaves exactly as the
empty query string: get_items normalizes None to the empty string before
searching, so the two inputs produce identical results. -/
theorem get_items_none_eq_empty_query (fs : PyStr → Option Roots)
    (bookmarks_paths : List (PyStr × PyStr)) :
    get_items fs bookmarks_paths none = get_items fs bookmarks_paths (some (enc "")) := rfl
